import Mathlib

/-!
# Verification of the project-structure analyzer

A shallow embedding of `codebase-explorer/scripts/analyze_structure.py`:
the classifier tables, the line counter, the recursive tree builder
`analyze_directory`, the statistics aggregator `calculate_stats`, and the
JSON projection used by `main`.  Filesystem state is modelled explicitly:
a directory entry is a tree of named files (whose contents are a list of
lines, or an unreadable-error state) and directories (whose listing can be
permission-denied).
-/

namespace AnalyzeStructure

/-- Embedding of the `KEY_DIRECTORIES` dict (name → description). -/
def KEY_DIRECTORIES : List (String × String) :=
  [("src", "Source code"), ("lib", "Library code"), ("app", "Application code"),
   ("components", "UI components"), ("pages", "Page components"),
   ("views", "View components"), ("api", "API endpoints"),
   ("routes", "Route definitions"), ("controllers", "Controller logic"),
   ("services", "Business logic services"), ("models", "Data models"),
   ("utils", "Utility functions"), ("helpers", "Helper functions"),
   ("config", "Configuration files"), ("tests", "Test files"),
   ("test", "Test files"), ("__tests__", "Test files"),
   ("spec", "Test specifications"), ("docs", "Documentation"),
   ("assets", "Static assets"), ("public", "Public files"),
   ("static", "Static files"), ("styles", "Stylesheets"),
   ("scripts", "Build/deploy scripts"), ("dist", "Distribution files"),
   ("build", "Build output"), ("node_modules", "Node dependencies"),
   (".git", "Git version control"), ("vendor", "Third-party dependencies")]

/-- Embedding of the `CODE_EXTENSIONS` set. -/
def CODE_EXTENSIONS : List String :=
  ["py", "js", "ts", "jsx", "tsx", "vue", "svelte",
   "java", "kt", "kts", "go", "rs", "c", "cpp", "h", "hpp",
   "cs", "swift", "rb", "php", "scala", "dart",
   "html", "css", "scss", "sass", "less",
   "json", "yaml", "yml", "xml", "toml", "ini"]

/-- The fixed generated/ignore set `skip_dirs` of `analyze_directory`. -/
def skipDirs : List String :=
  ["node_modules", "__pycache__", ".git", "dist", "build", ".next", ".nuxt"]

/-- Python `str.lower()` (character-wise lowering). -/
def strLower (s : String) : String := String.mk (s.toList.map Char.toLower)

/-- `name.lower() in KEY_DIRECTORIES` (dict membership = key membership). -/
def isKeyDir (n : String) : Bool := (KEY_DIRECTORIES.map Prod.fst).contains (strLower n)

/-- Python `name.startswith('.')`: the first character is `'.'`. -/
def startsWithDot (n : String) : Bool :=
  match n.toList with
  | [] => false
  | c :: _ => c = '.'

/-- The hidden-name test of line 108:
`root_path.name.startswith('.') and root_path.name != '.'`. -/
def hiddenName (n : String) : Bool := startsWithDot n && n != "."

/-- Index of the last `'.'` in a character list (Python `str.rfind('.')`
restricted to a found result). -/
def lastDotPos : List Char → Option Nat
  | [] => none
  | c :: cs =>
    match lastDotPos cs with
    | some i => some (i + 1)
    | none => if c = '.' then some 0 else none

/-- Python `Path(name).suffix.lstrip('.').lower()` for a final path
segment `name`: the extension after the last dot, provided that dot is
neither the first nor the last character, lower-cased; `""` otherwise.
(The suffix starts with exactly one dot, so `lstrip('.')` removes it.) -/
def extOfName (name : String) : String :=
  let cs := name.toList
  match lastDotPos cs with
  | some i =>
      if 0 < i && i + 1 < cs.length then String.mk ((cs.drop (i + 1)).map Char.toLower)
      else ""
  | none => ""

/-- Split a character list at `'/'` separators. -/
def splitSlash : List Char → List (List Char)
  | [] => [[]]
  | c :: rest =>
    match splitSlash rest with
    | seg :: segs => if c = '/' then [] :: seg :: segs else (c :: seg) :: segs
    | [] => [[]]

/-- Python `Path(p).name` on the path strings the analyzer builds: the
segment after the last `'/'`. -/
def basenameStr (p : String) : String := String.mk ((splitSlash p.toList).getLastD [])

/-- `str(parent / name)` for the paths the analyzer builds. -/
def joinPath (pp n : String) : String := if pp = "" then n else pp ++ "/" ++ n

/-- A file's readable content is its list of lines; `none` models any I/O
error on opening/reading (missing file, permission denial, device error). -/
def countLines : Option (List String) → Nat
  | some ls => ls.length
  | none => 0

/-- The filesystem as seen by the analyzer.  A directory's `denied` flag
models `iterdir()` raising `PermissionError`. -/
inductive Entry where
  | file (name : String) (content : Option (List String))
  | dir (name : String) (denied : Bool) (entries : List Entry)

/-- `x.is_dir()`. -/
def entryIsDir : Entry → Bool
  | .file _ _ => false
  | .dir _ _ _ => true

/-- `x.name`. -/
def entryName : Entry → String
  | .file n _ => n
  | .dir n _ _ => n

mutual

def Entry.size : Entry → Nat
  | .file _ _ => 1
  | .dir _ _ es => 1 + Entry.sizeList es

def Entry.sizeList : List Entry → Nat
  | [] => 0
  | e :: es => 1 + Entry.size e + Entry.sizeList es

end

/-- Lexicographic comparison of character lists by code point — Python's
string `<=`. -/
def charListLe : List Char → List Char → Bool
  | [], _ => true
  | _ :: _, [] => false
  | a :: as, b :: bs => if a = b then charListLe as bs else decide (a < b)

/-- Python string `<=`. -/
def strLe (a b : String) : Bool := charListLe a.toList b.toList

theorem charListLe_total : (as bs : List Char) →
    charListLe as bs = true ∨ charListLe bs as = true
  | [], _ => Or.inl rfl
  | _ :: _, [] => Or.inr rfl
  | a :: as, b :: bs => by
      by_cases hab : a = b
      · subst hab
        rcases charListLe_total as bs with h | h
        · exact Or.inl (by simp [charListLe, h])
        · exact Or.inr (by simp [charListLe, h])
      · rcases lt_or_gt_of_ne hab with h | h
        · exact Or.inl (by simp [charListLe, hab, h])
        · exact Or.inr (by simp [charListLe, Ne.symm hab, h])

theorem charListLe_trans : (as bs cs : List Char) →
    charListLe as bs = true → charListLe bs cs = true → charListLe as cs = true
  | [], _, _, _, _ => rfl
  | _ :: _, [], _, h, _ => by simp [charListLe] at h
  | _ :: _, _ :: _, [], _, h => by simp [charListLe] at h
  | a :: as, b :: bs, c :: cs, h1, h2 => by
      by_cases hab : a = b <;> by_cases hbc : b = c
      · subst hab; subst hbc
        simp [charListLe] at h1 h2 ⊢
        exact charListLe_trans as bs cs h1 h2
      · subst hab
        simp [charListLe, hbc] at h2 ⊢
        simp [hbc, h2]
      · subst hbc
        simp [charListLe, hab] at h1 ⊢
        simp [hab, h1]
      · simp [charListLe, hab] at h1
        simp [charListLe, hbc] at h2
        have hac : a < c := lt_trans h1 h2
        simp [charListLe, ne_of_lt hac, hac]

theorem strLe_trans {a b c : String} :
    strLe a b = true → strLe b c = true → strLe a c = true :=
  charListLe_trans _ _ _

/-- The sort key comparison `(not x.is_dir(), x.name) <= (not y.is_dir(), y.name)`:
directories before files, then name ascending. -/
def keyLe (d₁ : Bool) (n₁ : String) (d₂ : Bool) (n₂ : String) : Bool :=
  if d₁ = d₂ then strLe n₁ n₂ else d₁

theorem keyLe_iff (d₁ d₂ : Bool) (n₁ n₂ : String) :
    keyLe d₁ n₁ d₂ n₂ = true ↔
      (d₁ = d₂ ∧ strLe n₁ n₂ = true) ∨ (d₁ = true ∧ d₂ = false) := by
  unfold keyLe
  cases d₁ <;> cases d₂ <;> simp

/-- The entry ordering used by `sorted(root_path.iterdir(), key=...)`. -/
def entryRel (a b : Entry) : Prop :=
  keyLe (entryIsDir a) (entryName a) (entryIsDir b) (entryName b) = true

instance : DecidableRel entryRel := fun a b => by
  unfold entryRel; infer_instance

instance : IsTotal Entry entryRel := by
  constructor
  intro a b
  unfold entryRel
  rw [keyLe_iff, keyLe_iff]
  rcases charListLe_total (entryName a).data (entryName b).data with h | h <;>
    cases entryIsDir a <;> cases entryIsDir b <;> simp [strLe, String.toList, h]

instance : IsTrans Entry entryRel := by
  constructor
  intro a b c hab hbc
  unfold entryRel at *
  rw [keyLe_iff] at hab hbc ⊢
  rcases hab with ⟨hd, hn⟩ | ⟨h1, h2⟩ <;> rcases hbc with ⟨hd2, hn2⟩ | ⟨h3, h4⟩
  · exact Or.inl ⟨hd.trans hd2, strLe_trans hn hn2⟩
  · exact Or.inr ⟨hd.trans h3, h4⟩
  · exact Or.inr ⟨h1, hd2 ▸ h2⟩
  · rw [h2] at h3
    cases h3

/-- `sorted(root_path.iterdir(), key=lambda x: (not x.is_dir(), x.name))`:
a stable sort by the directories-first-then-name key. -/
def sortEntries (l : List Entry) : List Entry := l.insertionSort entryRel

theorem sizeList_eq_sum (l : List Entry) :
    Entry.sizeList l = l.length + (l.map Entry.size).sum := by
  induction l with
  | nil => rfl
  | cons e es ih => simp [Entry.sizeList, ih]; omega

theorem sizeList_sortEntries (l : List Entry) :
    Entry.sizeList (sortEntries l) = Entry.sizeList l := by
  rw [sizeList_eq_sum, sizeList_eq_sum]
  have hperm : List.Perm (sortEntries l) l := List.perm_insertionSort entryRel l
  rw [hperm.length_eq, List.Perm.sum_eq (hperm.map Entry.size)]

theorem size_le_of_mem {x : Entry} {l : List Entry} (h : x ∈ l) :
    Entry.size x ≤ Entry.sizeList l := by
  induction l with
  | nil => cases h
  | cons e es ih =>
    rcases List.mem_cons.mp h with rfl | h'
    · simp [Entry.sizeList]; omega
    · have := ih h'
      simp [Entry.sizeList]; omega

/-- A built tree node.  The `children` of a Python result dict mix child
dicts with literal marker strings (`'<skipped>'`, `'<permission denied>'`),
so a child is either a node or a marker. -/
inductive Child where
  | node (name ty path : String) (children : List Child) (line_count : Nat) (is_key : Bool)
  | marker (s : String)

mutual

def childBeq : Child → Child → Bool
  | .node n1 t1 p1 c1 l1 k1, .node n2 t2 p2 c2 l2 k2 =>
      n1 == n2 && t1 == t2 && p1 == p2 && childListBeq c1 c2 && l1 == l2 && k1 == k2
  | .marker s1, .marker s2 => s1 == s2
  | _, _ => false

def childListBeq : List Child → List Child → Bool
  | [], [] => true
  | a :: as, b :: bs => childBeq a b && childListBeq as bs
  | _, _ => false

end

mutual

theorem childBeq_iff : (a b : Child) → (childBeq a b = true ↔ a = b)
  | .node n1 t1 p1 c1 l1 k1, .node n2 t2 p2 c2 l2 k2 => by
      simp [childBeq, childListBeq_iff c1 c2, Child.node.injEq, and_assoc]
  | .node _ _ _ _ _ _, .marker _ => by simp [childBeq]
  | .marker _, .node _ _ _ _ _ _ => by simp [childBeq]
  | .marker s1, .marker s2 => by simp [childBeq]

theorem childListBeq_iff : (as bs : List Child) → (childListBeq as bs = true ↔ as = bs)
  | [], [] => by simp [childListBeq]
  | [], _ :: _ => by simp [childListBeq]
  | _ :: _, [] => by simp [childListBeq]
  | a :: as, b :: bs => by
      simp [childListBeq, childBeq_iff a b, childListBeq_iff as bs]

end

instance : DecidableEq Child := fun a b => decidable_of_iff _ (childBeq_iff a b)

/-- `child.get('line_count', 0)`. -/
def Child.lineCount : Child → Nat
  | .node _ _ _ _ lc _ => lc
  | .marker _ => 0

/-- The parent's accumulated `line_count` over its appended children. -/
def childrenLines (cs : List Child) : Nat := (cs.map Child.lineCount).sum

mutual

/-- Embedding of `analyze_directory(root_path, max_depth, include_hidden,
current_depth)`.  `e` is the entry at `root_path`, `pp` the parent path
string (so the node's `path` is `str(pp / name)`).  Returns `none` exactly
where the Python returns `None`. -/
def analyze (e : Entry) (maxDepth : Nat) (includeHidden : Bool)
    (currentDepth : Nat) (pp : String) : Option Child :=
  if currentDepth > maxDepth then none
  else
    match e with
    | .file n content =>
        let lc := if CODE_EXTENSIONS.contains (extOfName n) then countLines content else 0
        some (.node n "file" (joinPath pp n) [] lc false)
    | .dir n denied es =>
        let path := joinPath pp n
        let isKey := isKeyDir n
        if !includeHidden && hiddenName n then none
        else if skipDirs.contains n then
          some (.node n "dir" path [.marker "<skipped>"] 0 isKey)
        else if denied then
          some (.node n "dir" path [.marker "<permission denied>"] 0 isKey)
        else
          let cs := analyzeList (sortEntries es) maxDepth includeHidden (currentDepth + 1) path
          some (.node n "dir" path cs (childrenLines cs) isKey)
termination_by 2 * Entry.size e
decreasing_by
  all_goals simp [Entry.size, Entry.sizeList]
  all_goals rw [sizeList_sortEntries]
  all_goals omega

/-- The `for item in items:` loop body: recurse, append the child when the
recursive call produced one. -/
def analyzeList (l : List Entry) (maxDepth : Nat) (includeHidden : Bool)
    (currentDepth : Nat) (pp : String) : List Child :=
  match l with
  | [] => []
  | x :: xs =>
    match analyze x maxDepth includeHidden currentDepth pp with
    | some c => c :: analyzeList xs maxDepth includeHidden currentDepth pp
    | none => analyzeList xs maxDepth includeHidden currentDepth pp
termination_by 2 * Entry.sizeList l + 1
decreasing_by
  all_goals simp [Entry.sizeList]
  all_goals omega

end

/-- The accumulator dict of `calculate_stats` (field order = insertion order). -/
structure Stats where
  total_files : Nat
  code_files : Nat
  total_lines : Nat
  directories : Nat
  by_language : List (String × Nat)
deriving DecidableEq, Repr

/-- `stats['by_language'][ext] = stats['by_language'].get(ext, 0) + lc`:
increment an existing key in place, else append the new key. -/
def addLang : List (String × Nat) → String → Nat → List (String × Nat)
  | [], k, v => [(k, v)]
  | (k', v') :: rest, k, v =>
      if k' = k then (k', v' + v) :: rest else (k', v') :: addLang rest k v

mutual

/-- The `traverse` closure of `calculate_stats`, threading the mutated
stats dict as explicit state. -/
def traverse (s : Stats) : Child → Stats
  | .marker _ => s
  | .node _ ty p cs lc _ =>
      if ty = "dir" then
        traverseList { s with directories := s.directories + 1 } cs
      else
        let s1 := { s with total_files := s.total_files + 1 }
        if lc > 0 then
          { s1 with code_files := s1.code_files + 1,
                    total_lines := s1.total_lines + lc,
                    by_language := addLang s1.by_language (extOfName (basenameStr p)) lc }
        else s1

def traverseList (s : Stats) : List Child → Stats
  | [] => s
  | c :: cs => traverseList (traverse s c) cs

end

/-- `calculate_stats(structure)`. -/
def calculate_stats (c : Child) : Stats :=
  traverse ⟨0, 0, 0, 0, []⟩ c

/-- The JSON values produced by `json.dump` of the structure dict. -/
inductive Json where
  | str (s : String)
  | num (n : Nat)
  | bool (b : Bool)
  | arr (xs : List Json)
  | obj (fields : List (String × Json))

mutual

/-- The JSON projection of a result node, field for field as the dict
is serialized by `json.dump`; marker strings serialize as JSON strings. -/
def childToJson : Child → Json
  | .marker s => .str s
  | .node n ty p cs lc k =>
      .obj [("name", .str n), ("type", .str ty), ("path", .str p),
            ("children", .arr (childListToJson cs)),
            ("line_count", .num lc), ("is_key", .bool k)]

def childListToJson : List Child → List Json
  | [] => []
  | c :: cs => childToJson c :: childListToJson cs

end

/-- Dict key lookup on a parsed JSON object. -/
def jLookup (k : String) : List (String × Json) → Option Json
  | [] => none
  | (k', v) :: rest => if k' = k then some v else jLookup k rest

/-- Read a JSON string (total, defaulting; the analyzer's own artifact
always has the key with the right type). -/
def jGetStr : Option Json → String
  | some (.str s) => s
  | _ => ""

def jGetNum : Option Json → Nat
  | some (.num n) => n
  | _ => 0

def jGetArr : Option Json → List Json
  | some (.arr xs) => xs
  | _ => []

mutual

def Json.size : Json → Nat
  | .str _ => 1
  | .num _ => 1
  | .bool _ => 1
  | .arr xs => 1 + Json.sizeArr xs
  | .obj fs => 1 + Json.sizeObj fs

def Json.sizeArr : List Json → Nat
  | [] => 0
  | j :: js => 1 + Json.size j + Json.sizeArr js

def Json.sizeObj : List (String × Json) → Nat
  | [] => 0
  | f :: fs => 1 + Json.size f.2 + Json.sizeObj fs

end

theorem size_jLookup {k : String} {fs : List (String × Json)} {v : Json}
    (h : jLookup k fs = some v) : Json.size v ≤ Json.sizeObj fs := by
  induction fs with
  | nil => simp [jLookup] at h
  | cons f rest ih =>
    rw [jLookup] at h
    by_cases hk : f.1 = k
    · simp [hk] at h
      subst h
      simp [Json.sizeObj]; omega
    · simp [hk] at h
      have := ih h
      simp [Json.sizeObj]; omega

theorem sizeArr_jGetArr_jLookup (k : String) (fs : List (String × Json)) :
    Json.sizeArr (jGetArr (jLookup k fs)) ≤ Json.sizeObj fs := by
  cases h : jLookup k fs with
  | none => simp [jGetArr, Json.sizeArr]
  | some v =>
    have := size_jLookup h
    cases v <;> simp [jGetArr, Json.sizeArr] <;> simp [Json.size] at this <;> omega

mutual

/-- `calculate_stats`'s `traverse` applied to the parsed JSON artifact
(`json.load` yields dicts, lists and strings again; `isinstance(node, str)`
recognizes the marker sentinels). -/
def traverseJson (s : Stats) (j : Json) : Stats :=
  match j with
  | .str _ => s
  | .obj fs =>
      if jGetStr (jLookup "type" fs) = "dir" then
        traverseJsonList { s with directories := s.directories + 1 }
          (jGetArr (jLookup "children" fs))
      else
        let s1 := { s with total_files := s.total_files + 1 }
        let lc := jGetNum (jLookup "line_count" fs)
        if lc > 0 then
          { s1 with code_files := s1.code_files + 1,
                    total_lines := s1.total_lines + lc,
                    by_language := addLang s1.by_language
                      (extOfName (basenameStr (jGetStr (jLookup "path" fs)))) lc }
        else s1
  | _ => s
termination_by 2 * Json.size j
decreasing_by
  simp [Json.size]
  have := sizeArr_jGetArr_jLookup "children" fs
  omega

def traverseJsonList (s : Stats) (l : List Json) : Stats :=
  match l with
  | [] => s
  | j :: js => traverseJsonList (traverseJson s j) js
termination_by 2 * Json.sizeArr l + 1
decreasing_by
  all_goals simp [Json.sizeArr]
  all_goals omega

end

/-- Re-deriving the statistics from the parsed JSON artifact. -/
def statsFromJson (j : Json) : Stats :=
  traverseJson ⟨0, 0, 0, 0, []⟩ j

/-- `1 <= size` for every entry. -/
theorem size_ge_one (e : Entry) : 1 ≤ Entry.size e := by
  cases e <;> simp [Entry.size]

/-- No Python `None` results appear below the depth limit. -/
theorem analyze_none_of_depth {e : Entry} {d dep : Nat} {ih : Bool} {pp : String}
    (h : dep > d) : analyze e d ih dep pp = none := by
  cases e <;> simp [analyze, h]

theorem analyzeList_nil_of_depth (l : List Entry) {d dep : Nat} (ih : Bool) (pp : String)
    (h : dep > d) : analyzeList l d ih dep pp = [] := by
  induction l with
  | nil => simp [analyzeList]
  | cons x xs IH => simp [analyzeList, analyze_none_of_depth h, IH]

/-- Every child produced by the loop comes from some entry of the list. -/
theorem analyzeList_mem {l : List Entry} {d dep : Nat} {ih : Bool} {pp : String} {c : Child}
    (hc : c ∈ analyzeList l d ih dep pp) : ∃ x ∈ l, analyze x d ih dep pp = some c := by
  induction l with
  | nil => simp [analyzeList] at hc
  | cons x xs IH =>
    rw [analyzeList] at hc
    revert hc
    cases h : analyze x d ih dep pp with
    | some c' =>
      intro hc
      rcases List.mem_cons.mp hc with rfl | hc'
      · exact ⟨x, List.mem_cons_self x xs, h⟩
      · obtain ⟨y, hy, hy2⟩ := IH hc'
        exact ⟨y, List.mem_cons_of_mem x hy, hy2⟩
    | none =>
      intro hc
      obtain ⟨y, hy, hy2⟩ := IH hc
      exact ⟨y, List.mem_cons_of_mem x hy, hy2⟩

mutual

/-- Rollup invariant (claim C1): every `'dir'` node's `line_count` is the
sum of its direct children's `line_count`s, recursively. -/
def rollupOk : Child → Bool
  | .marker _ => true
  | .node _ ty _ cs lc _ =>
      (ty != "dir" || lc == childrenLines cs) && rollupOkList cs

def rollupOkList : List Child → Bool
  | [] => true
  | c :: cs => rollupOk c && rollupOkList cs

end

theorem rollupOkList_iff (cs : List Child) :
    rollupOkList cs = true ↔ ∀ c ∈ cs, rollupOk c = true := by
  induction cs with
  | nil => simp [rollupOkList]
  | cons c cs IH => simp [rollupOkList, IH]

/-- Child-node sort-key comparison derived from the node's `type` and `name`
(markers compare trivially). -/
def childLeB : Child → Child → Bool
  | .node n1 t1 _ _ _ _, .node n2 t2 _ _ _ _ => keyLe (t1 == "dir") n1 (t2 == "dir") n2
  | _, _ => true

/-- Adjacent-pairs sortedness of a children list. -/
def childrenSortedB : List Child → Bool
  | [] => true
  | [_] => true
  | a :: b :: rest => childLeB a b && childrenSortedB (b :: rest)

mutual

/-- Sortedness (claim C5): every node's children list is sorted
directories-first then by ascending name, recursively. -/
def sortedOk : Child → Bool
  | .marker _ => true
  | .node _ _ _ cs _ _ => childrenSortedB cs && sortedOkList cs

def sortedOkList : List Child → Bool
  | [] => true
  | c :: cs => sortedOk c && sortedOkList cs

end

theorem sortedOkList_iff (cs : List Child) :
    sortedOkList cs = true ↔ ∀ c ∈ cs, sortedOk c = true := by
  induction cs with
  | nil => simp [sortedOkList]
  | cons c cs IH => simp [sortedOkList, IH]

theorem childrenSortedB_cons {c : Child} {cs : List Child}
    (h1 : ∀ c2 ∈ cs, childLeB c c2 = true) (h2 : childrenSortedB cs = true) :
    childrenSortedB (c :: cs) = true := by
  cases cs with
  | nil => rfl
  | cons b rest =>
    rw [childrenSortedB]
    simp [h1 b (List.mem_cons_self b rest), h2]

/-- `true` when the list holds no node (only markers). -/
def noNodes : List Child → Bool
  | [] => true
  | .marker _ :: cs => noNodes cs
  | .node _ _ _ _ _ _ :: _ => false

mutual

/-- Depth bound (claim C4): with the tree root at relative depth `0`,
every node lies at relative depth at most `k`. -/
def depthLe : Child → Nat → Bool
  | .marker _, _ => true
  | .node _ _ _ cs _ _, 0 => noNodes cs
  | .node _ _ _ cs _ _, k + 1 => depthLeList cs k

def depthLeList : List Child → Nat → Bool
  | [], _ => true
  | c :: cs, k => depthLe c k && depthLeList cs k

end

theorem depthLeList_iff (cs : List Child) (k : Nat) :
    depthLeList cs k = true ↔ ∀ c ∈ cs, depthLe c k = true := by
  induction cs with
  | nil => simp [depthLeList]
  | cons c cs IH => simp [depthLeList, IH]

mutual

/-- Hidden-directory absence (claim C3, amended): no `'dir'` node anywhere
in the tree has a name that begins with `'.'` and is not exactly `"."`. -/
def noHiddenDir : Child → Bool
  | .marker _ => true
  | .node n ty _ cs _ _ => !(ty == "dir" && hiddenName n) && noHiddenDirList cs

def noHiddenDirList : List Child → Bool
  | [] => true
  | c :: cs => noHiddenDir c && noHiddenDirList cs

end

theorem noHiddenDirList_iff (cs : List Child) :
    noHiddenDirList cs = true ↔ ∀ c ∈ cs, noHiddenDir c = true := by
  induction cs with
  | nil => simp [noHiddenDirList]
  | cons c cs IH => simp [noHiddenDirList, IH]

mutual

/-- `true` when some node (directory or file) anywhere in the tree has a
name beginning with `'.'`. -/
def anyHiddenNode : Child → Bool
  | .marker _ => false
  | .node n _ _ cs _ _ => startsWithDot n || anyHiddenList cs

def anyHiddenList : List Child → Bool
  | [] => false
  | c :: cs => anyHiddenNode c || anyHiddenList cs

end

/-- `true` when some non-root node of the tree has a name beginning with
`'.'`. -/
def anyHiddenBelowRoot : Child → Bool
  | .marker _ => false
  | .node _ _ _ cs _ _ => anyHiddenList cs

def optAnyHiddenBelowRoot : Option Child → Bool
  | some c => anyHiddenBelowRoot c
  | none => false

/-- One-step unfolding of `analyze` at a file entry. -/
theorem analyze_file_eq {n : String} {content : Option (List String)} {d dep : Nat}
    {ih : Bool} {pp : String} (h : ¬ dep > d) :
    analyze (.file n content) d ih dep pp =
      some (.node n "file" (joinPath pp n) []
        (if CODE_EXTENSIONS.contains (extOfName n) then countLines content else 0) false) := by
  simp only [analyze]
  simp [h]

/-- One-step unfolding of `analyze` at a directory entry. -/
theorem analyze_dir_eq {n : String} {den : Bool} {es : List Entry} {d dep : Nat}
    {ih : Bool} {pp : String} (h : ¬ dep > d) :
    analyze (.dir n den es) d ih dep pp =
      (if !ih && hiddenName n then none
       else if skipDirs.contains n then
         some (.node n "dir" (joinPath pp n) [.marker "<skipped>"] 0 (isKeyDir n))
       else if den then
         some (.node n "dir" (joinPath pp n) [.marker "<permission denied>"] 0 (isKeyDir n))
       else
         some (.node n "dir" (joinPath pp n)
           (analyzeList (sortEntries es) d ih (dep + 1) (joinPath pp n))
           (childrenLines (analyzeList (sortEntries es) d ih (dep + 1) (joinPath pp n)))
           (isKeyDir n))) := by
  simp only [analyze]
  simp [h]

/-- A produced node carries its entry's name, and is a `'dir'` node exactly
when the entry is a directory. -/
theorem analyze_some_key {e : Entry} {d dep : Nat} {ih : Bool} {pp : String} {c : Child}
    (h : analyze e d ih dep pp = some c) :
    ∃ n ty p cs lc k, c = .node n ty p cs lc k ∧ n = entryName e ∧
      (ty == "dir") = entryIsDir e := by
  by_cases hd : dep > d
  · rw [analyze_none_of_depth hd] at h
    cases h
  · cases e with
    | file nm content =>
      rw [analyze_file_eq hd] at h
      exact ⟨nm, "file", joinPath pp nm, [], _, false, (Option.some.inj h).symm, rfl, rfl⟩
    | dir nm den es =>
      rw [analyze_dir_eq hd] at h
      by_cases h1 : (!ih && hiddenName nm) = true
      · rw [if_pos h1] at h
        cases h
      · rw [if_neg h1] at h
        by_cases h2 : skipDirs.contains nm = true
        · rw [if_pos h2] at h
          exact ⟨nm, "dir", _, _, _, _, (Option.some.inj h).symm, rfl, rfl⟩
        · rw [if_neg h2] at h
          by_cases h3 : den = true
          · rw [if_pos h3] at h
            exact ⟨nm, "dir", _, _, _, _, (Option.some.inj h).symm, rfl, rfl⟩
          · rw [if_neg h3] at h
            exact ⟨nm, "dir", _, _, _, _, (Option.some.inj h).symm, rfl, rfl⟩

/-- The sort-key relation between entries transfers to their produced nodes. -/
theorem childLeB_of_entryRel {x y : Entry} {cx cy : Child} {d dep : Nat}
    {ih : Bool} {pp : String} (hr : entryRel x y)
    (hx : analyze x d ih dep pp = some cx) (hy : analyze y d ih dep pp = some cy) :
    childLeB cx cy = true := by
  obtain ⟨n1, t1, p1, cs1, l1, k1, rfl, hn1, hd1⟩ := analyze_some_key hx
  obtain ⟨n2, t2, p2, cs2, l2, k2, rfl, hn2, hd2⟩ := analyze_some_key hy
  show keyLe (t1 == "dir") n1 (t2 == "dir") n2 = true
  rw [hd1, hd2, hn1, hn2]
  exact hr

/-- The loop keeps a key-sorted entry list's retained children key-sorted. -/
theorem childrenSortedB_analyzeList {l : List Entry} {d dep : Nat}
    {ih : Bool} {pp : String} (hp : List.Pairwise entryRel l) :
    childrenSortedB (analyzeList l d ih dep pp) = true := by
  induction l with
  | nil => rw [analyzeList]; rfl
  | cons x xs IH =>
    rcases List.pairwise_cons.mp hp with ⟨hx, hxs⟩
    rw [analyzeList]
    cases h : analyze x d ih dep pp with
    | none => exact IH hxs
    | some c =>
      apply childrenSortedB_cons
      · intro c2 hc2
        obtain ⟨y, hy, hy2⟩ := analyzeList_mem hc2
        exact childLeB_of_entryRel (hx y hy) h hy2
      · exact IH hxs

/-- The combined structural invariants of every tree `analyze` builds:
rollup of line counts, children sortedness, the depth bound, and (when
hidden entries are excluded) absence of hidden directory nodes. -/
theorem analyzeInv_aux : ∀ k : Nat, ∀ (e : Entry) (d : Nat) (ih : Bool) (dep : Nat)
    (pp : String) (c : Child), Entry.size e ≤ k → analyze e d ih dep pp = some c →
    rollupOk c = true ∧ sortedOk c = true ∧ depthLe c (d - dep) = true ∧
      (ih = false → noHiddenDir c = true) := by
  intro k
  induction k with
  | zero =>
    intro e d ih dep pp c hs h
    have := size_ge_one e
    omega
  | succ k IH =>
    intro e d ih dep pp c hs h
    by_cases hd : dep > d
    · rw [analyze_none_of_depth hd] at h
      cases h
    · cases e with
      | file nm content =>
        rw [analyze_file_eq hd] at h
        injection h with h
        subst h
        refine ⟨by simp [rollupOk, rollupOkList], by simp [sortedOk, sortedOkList]; rfl, ?_, ?_⟩
        · cases d - dep <;> simp [depthLe, depthLeList, noNodes]
        · intro _
          simp [noHiddenDir, noHiddenDirList]
      | dir nm den es =>
        rw [analyze_dir_eq hd] at h
        by_cases h1 : (!ih && hiddenName nm) = true
        · rw [if_pos h1] at h
          cases h
        · rw [if_neg h1] at h
          by_cases h2 : skipDirs.contains nm = true
          · rw [if_pos h2] at h
            injection h with h
            subst h
            refine ⟨by simp [rollupOk, rollupOkList, childrenLines, Child.lineCount],
                    by simp [sortedOk, sortedOkList, childrenSortedB], ?_, ?_⟩
            · cases d - dep <;> simp [depthLe, depthLeList, noNodes]
            · intro hih
              subst hih
              simp at h1
              simp [noHiddenDir, noHiddenDirList, h1]
          · rw [if_neg h2] at h
            by_cases h3 : den = true
            · rw [if_pos h3] at h
              injection h with h
              subst h
              refine ⟨by simp [rollupOk, rollupOkList, childrenLines, Child.lineCount],
                      by simp [sortedOk, sortedOkList, childrenSortedB], ?_, ?_⟩
              · cases d - dep <;> simp [depthLe, depthLeList, noNodes]
              · intro hih
                subst hih
                simp at h1
                simp [noHiddenDir, noHiddenDirList, h1]
            · rw [if_neg h3] at h
              injection h with h
              subst h
              simp only [Entry.size] at hs
              have hes : Entry.sizeList es ≤ k := by omega
              have hmem : ∀ c2 ∈ analyzeList (sortEntries es) d ih (dep + 1) (joinPath pp nm),
                  rollupOk c2 = true ∧ sortedOk c2 = true ∧
                  depthLe c2 (d - (dep + 1)) = true ∧
                  (ih = false → noHiddenDir c2 = true) := by
                intro c2 hc2
                obtain ⟨y, hy, hy2⟩ := analyzeList_mem hc2
                have hsy : Entry.size y ≤ k := by
                  have h4 := size_le_of_mem hy
                  rw [sizeList_sortEntries] at h4
                  omega
                exact IH y d ih (dep + 1) (joinPath pp nm) c2 hsy hy2
              refine ⟨?_, ?_, ?_, ?_⟩
              · rw [rollupOk]
                simp only [Bool.and_eq_true]
                refine ⟨by simp, ?_⟩
                rw [rollupOkList_iff]
                intro c2 hc2
                exact (hmem c2 hc2).1
              · rw [sortedOk]
                simp only [Bool.and_eq_true]
                constructor
                · exact childrenSortedB_analyzeList (List.sorted_insertionSort entryRel es)
                · rw [sortedOkList_iff]
                  intro c2 hc2
                  exact (hmem c2 hc2).2.1
              · cases hdd : d - dep with
                | zero =>
                  have hgt : dep + 1 > d := by omega
                  rw [analyzeList_nil_of_depth (sortEntries es) ih (joinPath pp nm) hgt]
                  rfl
                | succ m =>
                  rw [depthLe]
                  rw [depthLeList_iff]
                  intro c2 hc2
                  have hm : d - (dep + 1) = m := by omega
                  rw [← hm]
                  exact (hmem c2 hc2).2.2.1
              · intro hih
                subst hih
                simp at h1
                rw [noHiddenDir]
                simp only [Bool.and_eq_true]
                constructor
                · simp [h1]
                · rw [noHiddenDirList_iff]
                  intro c2 hc2
                  exact (hmem c2 hc2).2.2.2 rfl

/-- The combined invariants, stated without the size fuel. -/
theorem analyze_ok {e : Entry} {d : Nat} {ih : Bool} {dep : Nat} {pp : String} {c : Child}
    (h : analyze e d ih dep pp = some c) :
    rollupOk c = true ∧ sortedOk c = true ∧ depthLe c (d - dep) = true ∧
      (ih = false → noHiddenDir c = true) :=
  analyzeInv_aux (Entry.size e) e d ih dep pp c (le_refl _) h

mutual

/-- Observational equivalence of filesystem entries: identical structure,
names and denied flags, and file contents with identical line counts. -/
def entryEquiv : Entry → Entry → Bool
  | .file n1 c1, .file n2 c2 => n1 == n2 && countLines c1 == countLines c2
  | .dir n1 d1 l1, .dir n2 d2 l2 => n1 == n2 && d1 == d2 && entryEquivList l1 l2
  | _, _ => false

def entryEquivList : List Entry → List Entry → Bool
  | [], [] => true
  | a :: as, b :: bs => entryEquiv a b && entryEquivList as bs
  | _, _ => false

end

mutual

theorem entryEquiv_refl : (e : Entry) → entryEquiv e e = true
  | .file n c => by simp [entryEquiv]
  | .dir n d l => by simp [entryEquiv, entryEquivList_refl l]

theorem entryEquivList_refl : (l : List Entry) → entryEquivList l l = true
  | [] => rfl
  | a :: as => by simp [entryEquivList, entryEquiv_refl a, entryEquivList_refl as]

end

theorem entryEquiv_name_isDir {a b : Entry} (h : entryEquiv a b = true) :
    entryName a = entryName b ∧ entryIsDir a = entryIsDir b := by
  cases a <;> cases b <;> simp_all [entryEquiv, entryName, entryIsDir]

theorem entryRel_congr {a b x y : Entry} (h1 : entryEquiv a b = true)
    (h2 : entryEquiv x y = true) : entryRel a x ↔ entryRel b y := by
  obtain ⟨hn1, hd1⟩ := entryEquiv_name_isDir h1
  obtain ⟨hn2, hd2⟩ := entryEquiv_name_isDir h2
  unfold entryRel
  rw [hn1, hd1, hn2, hd2]

theorem orderedInsert_congr : (l1 l2 : List Entry) → (a b : Entry) →
    entryEquiv a b = true → entryEquivList l1 l2 = true →
    entryEquivList (l1.orderedInsert entryRel a) (l2.orderedInsert entryRel b) = true
  | [], [], a, b, hab, _ => by simp [List.orderedInsert, entryEquivList, hab]
  | [], _ :: _, _, _, _, h => by simp [entryEquivList] at h
  | _ :: _, [], _, _, _, h => by simp [entryEquivList] at h
  | x :: xs, y :: ys, a, b, hab, h => by
      rw [entryEquivList] at h
      simp only [Bool.and_eq_true] at h
      rw [List.orderedInsert, List.orderedInsert]
      by_cases hr : entryRel a x
      · rw [if_pos hr, if_pos ((entryRel_congr hab h.1).mp hr)]
        simp [entryEquivList, hab, h.1, h.2]
      · rw [if_neg hr, if_neg (fun hc => hr ((entryRel_congr hab h.1).mpr hc))]
        simp only [entryEquivList, Bool.and_eq_true]
        exact ⟨h.1, orderedInsert_congr xs ys a b hab h.2⟩

theorem sortEntries_congr : (l1 l2 : List Entry) → entryEquivList l1 l2 = true →
    entryEquivList (sortEntries l1) (sortEntries l2) = true
  | [], [], _ => rfl
  | [], _ :: _, h => by simp [entryEquivList] at h
  | _ :: _, [], h => by simp [entryEquivList] at h
  | a :: as, b :: bs, h => by
      rw [entryEquivList] at h
      simp only [Bool.and_eq_true] at h
      simp only [sortEntries, List.insertionSort]
      exact orderedInsert_congr _ _ a b h.1 (sortEntries_congr as bs h.2)

/-- `analyze` only sees an entry through its structure, names, denied flags
and line counts, so it maps observationally equivalent filesystems to the
same tree. -/
theorem analyze_congr_aux : ∀ k : Nat,
    (∀ (e1 e2 : Entry) (d : Nat) (ih : Bool) (dep : Nat) (pp : String),
        Entry.size e1 ≤ k → entryEquiv e1 e2 = true →
        analyze e1 d ih dep pp = analyze e2 d ih dep pp) ∧
    (∀ (l1 l2 : List Entry) (d : Nat) (ih : Bool) (dep : Nat) (pp : String),
        Entry.sizeList l1 ≤ k → entryEquivList l1 l2 = true →
        analyzeList l1 d ih dep pp = analyzeList l2 d ih dep pp) := by
  intro k
  induction k with
  | zero =>
    constructor
    · intro e1 _ _ _ _ _ hs _
      have := size_ge_one e1
      omega
    · intro l1 l2 _ _ _ _ hs hl
      cases l1 with
      | nil =>
        cases l2 with
        | nil => rfl
        | cons _ _ => simp [entryEquivList] at hl
      | cons x xs =>
        simp [Entry.sizeList] at hs
  | succ k IH =>
    have hE : ∀ (e1 e2 : Entry) (d : Nat) (ih : Bool) (dep : Nat) (pp : String),
        Entry.size e1 ≤ k + 1 → entryEquiv e1 e2 = true →
        analyze e1 d ih dep pp = analyze e2 d ih dep pp := by
      intro e1 e2 d ih dep pp hs heq
      by_cases hd : dep > d
      · rw [analyze_none_of_depth hd, analyze_none_of_depth hd]
      · cases e1 with
        | file n1 c1 =>
          cases e2 with
          | file n2 c2 =>
            simp only [entryEquiv, Bool.and_eq_true, beq_iff_eq] at heq
            obtain ⟨hn, hc⟩ := heq
            subst hn
            rw [analyze_file_eq hd, analyze_file_eq hd, hc]
          | dir n2 den2 es2 => simp [entryEquiv] at heq
        | dir n1 den1 es1 =>
          cases e2 with
          | file n2 c2 => simp [entryEquiv] at heq
          | dir n2 den2 es2 =>
            simp only [entryEquiv, Bool.and_eq_true, beq_iff_eq] at heq
            obtain ⟨⟨hn, hden⟩, hl⟩ := heq
            subst hn
            subst hden
            rw [analyze_dir_eq hd, analyze_dir_eq hd]
            have hlist : analyzeList (sortEntries es1) d ih (dep + 1) (joinPath pp n1)
                = analyzeList (sortEntries es2) d ih (dep + 1) (joinPath pp n1) := by
              apply IH.2
              · rw [sizeList_sortEntries]
                simp only [Entry.size] at hs
                omega
              · exact sortEntries_congr es1 es2 hl
            rw [hlist]
    refine ⟨hE, ?_⟩
    intro l1
    induction l1 with
    | nil =>
      intro l2 d ih dep pp hs hl
      cases l2 with
      | nil => rfl
      | cons _ _ => simp [entryEquivList] at hl
    | cons x xs IHl =>
      intro l2 d ih dep pp hs hl
      cases l2 with
      | nil => simp [entryEquivList] at hl
      | cons y ys =>
        rw [entryEquivList] at hl
        simp only [Bool.and_eq_true] at hl
        have hsx : Entry.size x ≤ k + 1 := by
          simp [Entry.sizeList] at hs
          omega
        have hsxs : Entry.sizeList xs ≤ k + 1 := by
          simp [Entry.sizeList] at hs
          omega
        rw [analyzeList, analyzeList]
        rw [hE x y d ih dep pp hsx hl.1]
        cases hy : analyze y d ih dep pp with
        | some c =>
          simp only [hy]
          rw [IHl ys d ih dep pp hsxs hl.2]
        | none =>
          simp only [hy]
          exact IHl ys d ih dep pp hsxs hl.2

theorem analyze_congr {e1 e2 : Entry} {d : Nat} {ih : Bool} {dep : Nat} {pp : String}
    (heq : entryEquiv e1 e2 = true) :
    analyze e1 d ih dep pp = analyze e2 d ih dep pp :=
  (analyze_congr_aux (Entry.size e1)).1 e1 e2 d ih dep pp (le_refl _) heq

theorem entryEquivList_append {l r : List Entry} {a b : Entry} (h : entryEquiv a b = true) :
    entryEquivList (l ++ a :: r) (l ++ b :: r) = true := by
  induction l with
  | nil => simp [entryEquivList, h, entryEquivList_refl r]
  | cons x xs IH => simp [entryEquivList, entryEquiv_refl x, IH]

mutual

/-- `calculate_stats`'s traversal gives the same result on the parsed JSON
projection of a tree as on the tree itself. -/
theorem traverseJson_toJson : (c : Child) → ∀ s : Stats,
    traverseJson s (childToJson c) = traverse s c
  | .marker m => fun s => by
      simp [childToJson, traverseJson, traverse]
  | .node n t p cs lc k => fun s => by
      rw [childToJson]
      rw [traverseJson]
      simp +decide [jLookup, jGetStr, jGetNum, jGetArr]
      by_cases ht : t = "dir"
      · rw [if_pos ht]
        simp only [traverse]
        rw [if_pos ht]
        exact traverseJsonList_toJson cs _
      · rw [if_neg ht]
        simp only [traverse]
        rw [if_neg ht]

theorem traverseJsonList_toJson : (cs : List Child) → ∀ s : Stats,
    traverseJsonList s (childListToJson cs) = traverseList s cs
  | [] => fun s => by simp [childListToJson, traverseJsonList, traverseList]
  | c :: cs => fun s => by
      rw [childListToJson]
      rw [traverseJsonList]
      rw [traverseJson_toJson c s, traverseJsonList_toJson cs (traverse s c)]
      rw [traverseList]

end


/-! ## Claim fixtures, theorems, counterexamples and witnesses -/

def w1fs : Entry :=
  .dir "w1" false [.dir "a" false [.file "x.py" (some ["l1", "l2"])],
                   .file "y.js" (some ["l1"])]

def w1tree : Child :=
  .node "w1" "dir" "w1"
    [.node "a" "dir" "w1/a" [.node "x.py" "file" "w1/a/x.py" [] 2 false] 2 false,
     .node "y.js" "file" "w1/y.js" [] 1 false] 3 false

/-- C1: for every tree returned by the builder, the `line_count` of every
`'dir'` node equals the sum of its direct children's `line_count`s,
recursively, for any root entry, depth limit and hidden flag. -/
theorem C1_rollup_invariant (e : Entry) (d : Nat) (ih : Bool) (dep : Nat)
    (pp : String) (c : Child) (h : analyze e d ih dep pp = some c) :
    rollupOk c = true :=
  (analyze_ok h).1

theorem C1_rollup_invariant_witness :
    analyze w1fs 3 false 0 "" = some w1tree ∧ rollupOk w1tree = true :=
  ⟨by simp +decide [w1fs, w1tree, analyze, analyzeList, sortEntries, List.insertionSort,
      List.orderedInsert, countLines, joinPath, childrenLines, Child.lineCount],
   C1_rollup_invariant w1fs 3 false 0 "" w1tree
     (by simp +decide [w1fs, w1tree, analyze, analyzeList, sortEntries, List.insertionSort,
      List.orderedInsert, countLines, joinPath, childrenLines, Child.lineCount])⟩

def c2root : Entry :=
  .dir "proj" false
    [.dir "src" false
       [.file "a.py" (some ["1", "2", "3", "4", "5", "6", "7", "8", "9", "10"]),
        .file "b.py" (some ["1", "2", "3", "4", "5"])],
     .file "README.md" (some ["1", "2", "3"]),
     .dir "node_modules" false []]

def c2tree : Child :=
  .node "proj" "dir" "proj"
    [.node "node_modules" "dir" "proj/node_modules" [.marker "<skipped>"] 0 true,
     .node "src" "dir" "proj/src"
       [.node "a.py" "file" "proj/src/a.py" [] 10 false,
        .node "b.py" "file" "proj/src/b.py" [] 5 false] 15 true,
     .node "README.md" "file" "proj/README.md" [] 0 false] 15 false

/-- C2 counterexample: on the scenario filesystem the aggregator counts
three `'dir'` nodes — the root, `src`, and the materialized
`node_modules` — so `directories = 2` is false. -/
theorem C2_counterexample :
    analyze c2root 3 false 0 "" = some c2tree ∧
      (calculate_stats c2tree).directories ≠ 2 :=
  ⟨by simp +decide [c2root, c2tree, analyze, analyzeList, sortEntries, List.insertionSort,
      List.orderedInsert, countLines, joinPath, childrenLines, Child.lineCount], by decide⟩

/-- C2 amended: the scenario yields `directories = 3` (root, `src`, and the
materialized `node_modules`); all other expected aggregates hold
(`totalFiles = 3`, `codeFiles = 2`, `totalLines = 15`,
`byExtension = py ↦ 15`), and the `node_modules` node is present with the
`<skipped>` truncation marker and no node children. -/
theorem C2_amended_scenario :
    analyze c2root 3 false 0 "" = some c2tree ∧
      calculate_stats c2tree = ⟨3, 2, 15, 3, [("py", 15)]⟩ :=
  ⟨by simp +decide [c2root, c2tree, analyze, analyzeList, sortEntries, List.insertionSort,
      List.orderedInsert, countLines, joinPath, childrenLines, Child.lineCount], by decide⟩

def c3root : Entry := .dir "r" false [.file ".env" (some ["A"])]

/-- C3 counterexample: with `includeHidden = false`, a hidden *file*
(`.env`) still yields a node in the built tree — the code's hidden-name
check runs only in the directory branch. -/
theorem C3_counterexample :
    optAnyHiddenBelowRoot (analyze c3root 3 false 0 "") = true := by
  simp +decide [c3root, optAnyHiddenBelowRoot, anyHiddenBelowRoot, anyHiddenList,
    anyHiddenNode, analyze, analyzeList, sortEntries, List.insertionSort,
      List.orderedInsert, countLines, joinPath, childrenLines, Child.lineCount]

/-- C3 amended: with `includeHidden = false`, no *directory* node whose
name begins with `'.'` (other than the literal name `"."`) appears
anywhere in the built tree; hidden files are still materialized. -/
theorem C3_no_hidden_dir_nodes (e : Entry) (d dep : Nat) (pp : String) (c : Child)
    (h : analyze e d false dep pp = some c) : noHiddenDir c = true :=
  (analyze_ok h).2.2.2 rfl

def w3fs : Entry :=
  .dir "w3" false [.dir ".cache" false [.file "z.py" (some ["1"])],
                   .file "a.py" (some ["1"])]

def w3tree : Child :=
  .node "w3" "dir" "w3" [.node "a.py" "file" "w3/a.py" [] 1 false] 1 false

theorem C3_no_hidden_dir_nodes_witness :
    analyze w3fs 3 false 0 "" = some w3tree ∧ noHiddenDir w3tree = true :=
  ⟨by simp +decide [w3fs, w3tree, analyze, analyzeList, sortEntries, List.insertionSort,
      List.orderedInsert, countLines, joinPath, childrenLines, Child.lineCount],
   C3_no_hidden_dir_nodes w3fs 3 0 "" w3tree
     (by simp +decide [w3fs, w3tree, analyze, analyzeList, sortEntries, List.insertionSort,
      List.orderedInsert, countLines, joinPath, childrenLines, Child.lineCount])⟩

/-- C4: no node of a built tree lies at depth greater than the requested
`maxDepth`; and with `maxDepth = 0` on a root holding one subdirectory,
the result is the root node alone with empty children, whatever that
subdirectory holds. -/
theorem C4_depth_bound :
    (∀ (e : Entry) (d : Nat) (ih : Bool) (pp : String) (c : Child),
        analyze e d ih 0 pp = some c → depthLe c d = true) ∧
    (∀ (n sn : String) (sden : Bool) (ses : List Entry) (ih : Bool) (pp : String),
        (ih || !hiddenName n) = true → skipDirs.contains n = false →
        analyze (.dir n false [.dir sn sden ses]) 0 ih 0 pp =
          some (.node n "dir" (joinPath pp n) [] 0 (isKeyDir n))) := by
  constructor
  · intro e d ih pp c h
    have h2 := (analyze_ok h).2.2.1
    simpa using h2
  · intro n sn sden ses ih pp h1 h2
    rw [analyze_dir_eq (by omega)]
    rw [if_neg (by cases ih <;> simp_all), if_neg (by simpa using h2), if_neg (by simp)]
    rw [analyzeList_nil_of_depth _ _ _ (by omega)]
    rfl

def w4fs : Entry :=
  .dir "w4" false
    [.dir "a" false [.dir "b" false [.dir "c" false [.file "d.py" (some ["1"])]]]]

def w4tree : Child :=
  .node "w4" "dir" "w4"
    [.node "a" "dir" "w4/a" [.node "b" "dir" "w4/a/b" [] 0 false] 0 false] 0 false

theorem C4_depth_bound_witness :
    (analyze w4fs 2 false 0 "" = some w4tree ∧ depthLe w4tree 2 = true) ∧
    analyze (.dir "w4b" false [.dir "sub" true [.file "x.py" (some ["1"])]]) 0 false 0 "" =
      some (.node "w4b" "dir" "w4b" [] 0 false) :=
  ⟨⟨by simp +decide [w4fs, w4tree, analyze, analyzeList, sortEntries, List.insertionSort,
      List.orderedInsert, countLines, joinPath, childrenLines, Child.lineCount],
    C4_depth_bound.1 w4fs 2 false "" w4tree
      (by simp +decide [w4fs, w4tree, analyze, analyzeList, sortEntries, List.insertionSort,
      List.orderedInsert, countLines, joinPath, childrenLines, Child.lineCount])⟩,
   C4_depth_bound.2 "w4b" "sub" true [.file "x.py" (some ["1"])] false ""
     (by decide) (by decide)⟩

/-- C5: in every built tree, every node's children are ordered with all
`'dir'` children before all `'file'` children, each group ascending by
name. -/
theorem C5_children_sorted (e : Entry) (d : Nat) (ih : Bool) (dep : Nat)
    (pp : String) (c : Child) (h : analyze e d ih dep pp = some c) :
    sortedOk c = true :=
  (analyze_ok h).2.1

def w5fs : Entry :=
  .dir "w5" false [.file "b.txt" (some ["1"]), .dir "z" false [],
                   .file "a.py" (some ["1"]), .dir "m" false []]

def w5tree : Child :=
  .node "w5" "dir" "w5"
    [.node "m" "dir" "w5/m" [] 0 false,
     .node "z" "dir" "w5/z" [] 0 false,
     .node "a.py" "file" "w5/a.py" [] 1 false,
     .node "b.txt" "file" "w5/b.txt" [] 0 false] 1 false

theorem C5_children_sorted_witness :
    analyze w5fs 3 false 0 "" = some w5tree ∧ sortedOk w5tree = true :=
  ⟨by simp +decide [w5fs, w5tree, analyze, analyzeList, sortEntries, List.insertionSort,
      List.orderedInsert, countLines, joinPath, childrenLines, Child.lineCount],
   C5_children_sorted w5fs 3 false 0 "" w5tree
     (by simp +decide [w5fs, w5tree, analyze, analyzeList, sortEntries, List.insertionSort,
      List.orderedInsert, countLines, joinPath, childrenLines, Child.lineCount])⟩

/-- C6: a reachable directory in the skip set is materialized with the
`<skipped>` marker and no node children; a reachable permission-denied
directory is materialized with the distinct `<permission denied>` marker;
a depth-pruned entry produces no node at all; and the two markers differ. -/
theorem C6_skip_denied_distinct :
    (∀ (n : String) (den : Bool) (es : List Entry) (d : Nat) (ih : Bool)
        (dep : Nat) (pp : String),
        dep ≤ d → (ih || !hiddenName n) = true → skipDirs.contains n = true →
        analyze (.dir n den es) d ih dep pp =
          some (.node n "dir" (joinPath pp n) [.marker "<skipped>"] 0 (isKeyDir n))) ∧
    (∀ (n : String) (es : List Entry) (d : Nat) (ih : Bool) (dep : Nat) (pp : String),
        dep ≤ d → (ih || !hiddenName n) = true → skipDirs.contains n = false →
        analyze (.dir n true es) d ih dep pp =
          some (.node n "dir" (joinPath pp n) [.marker "<permission denied>"] 0 (isKeyDir n))) ∧
    (∀ (e : Entry) (d : Nat) (ih : Bool) (dep : Nat) (pp : String),
        dep > d → analyze e d ih dep pp = none) ∧
    ("<skipped>" : String) ≠ "<permission denied>" := by
  refine ⟨?_, ?_, ?_, by decide⟩
  · intro n den es d ih dep pp hdep h1 h2
    rw [analyze_dir_eq (by omega)]
    rw [if_neg (by cases ih <;> simp_all), if_pos h2]
  · intro n es d ih dep pp hdep h1 h2
    rw [analyze_dir_eq (by omega)]
    rw [if_neg (by cases ih <;> simp_all), if_neg (by simpa using h2), if_pos rfl]
  · intro e d ih dep pp h
    exact analyze_none_of_depth h

theorem C6_skip_denied_distinct_witness :
    analyze (.dir "node_modules" false [.file "p.py" (some ["1"])]) 3 false 0 "" =
      some (.node "node_modules" "dir" "node_modules" [.marker "<skipped>"] 0 true) ∧
    analyze (.dir "secret" true [.file "q.py" (some ["1"])]) 3 false 0 "" =
      some (.node "secret" "dir" "secret" [.marker "<permission denied>"] 0 false) ∧
    analyze (.file "deep.py" (some ["1"])) 3 false 4 "" = none :=
  ⟨C6_skip_denied_distinct.1 "node_modules" false [.file "p.py" (some ["1"])] 3 false 0 ""
     (by decide) (by decide) (by decide),
   C6_skip_denied_distinct.2.1 "secret" [.file "q.py" (some ["1"])] 3 false 0 ""
     (by decide) (by decide) (by decide),
   C6_skip_denied_distinct.2.2.1 (.file "deep.py" (some ["1"])) 3 false 4 "" (by decide)⟩

/-- C7: the line counter returns 0 on an unreadable file; the builder gives
such a file a node with `line_count = 0`; and the whole built tree is the
same as if the file had simply been empty — the rest of the traversal is
unaffected. -/
theorem C7_unreadable_returns_zero :
    countLines none = 0 ∧
    (∀ (fn : String) (d : Nat) (ih : Bool) (dep : Nat) (pp : String), dep ≤ d →
        analyze (.file fn none) d ih dep pp =
          some (.node fn "file" (joinPath pp fn) [] 0 false)) ∧
    (∀ (m : String) (den : Bool) (es1 es2 : List Entry) (fn : String) (d : Nat)
        (ih : Bool) (dep : Nat) (pp : String),
        analyze (.dir m den (es1 ++ .file fn none :: es2)) d ih dep pp =
          analyze (.dir m den (es1 ++ .file fn (some []) :: es2)) d ih dep pp) := by
  refine ⟨rfl, ?_, ?_⟩
  · intro fn d ih dep pp hdep
    rw [analyze_file_eq (by omega)]
    simp [countLines]
  · intro m den es1 es2 fn d ih dep pp
    apply analyze_congr
    have hfe : entryEquiv (.file fn none) (.file fn (some [])) = true := by
      simp [entryEquiv, countLines]
    simp [entryEquiv, entryEquivList_append hfe]

theorem C7_unreadable_returns_zero_witness :
    analyze (.file "broken.py" none) 3 false 0 "" =
      some (.node "broken.py" "file" "broken.py" [] 0 false) ∧
    analyze (.dir "w7" false [.file "ok.py" (some ["1"]), .file "bad.py" none]) 3 false 0 "" =
      analyze (.dir "w7" false [.file "ok.py" (some ["1"]), .file "bad.py" (some [])]) 3 false 0 "" :=
  ⟨C7_unreadable_returns_zero.2.1 "broken.py" 3 false 0 "" (by decide),
   C7_unreadable_returns_zero.2.2 "w7" false [.file "ok.py" (some ["1"])] [] "bad.py" 3 false 0 ""⟩

/-- C8: serializing a built tree to its JSON projection and re-deriving the
statistics from the parsed serialization yields exactly the aggregates of
computing the statistics directly on the tree. -/
theorem C8_stats_roundtrip (c : Child) :
    statsFromJson (childToJson c) = calculate_stats c :=
  traverseJson_toJson c ⟨0, 0, 0, 0, []⟩

/-- C9 counterexample: a root directory whose own name begins with `'.'`
is dropped by the hidden-name rule even though it is the root — the
builder returns no node for it. -/
theorem C9_counterexample :
    analyze (.dir ".hiddenroot" false []) 3 false 0 "" = none := by
  rw [analyze_dir_eq (by omega)]
  rw [if_pos (by decide)]

/-- C9 amended: with `includeHidden = false` the hidden-name rule applies
to the root as well — any directory (root included) whose name begins with
`'.'` yields no node, with the sole exception of the literal name `"."`,
which is still analyzed. -/
theorem C9_hidden_root_dropped :
    (∀ (n : String) (den : Bool) (es : List Entry) (d dep : Nat) (pp : String),
        hiddenName n = true → analyze (.dir n den es) d false dep pp = none) ∧
    (∀ (den : Bool) (es : List Entry) (d : Nat) (pp : String),
        ∃ c, analyze (.dir "." den es) d false 0 pp = some c) := by
  constructor
  · intro n den es d dep pp h
    by_cases hd : dep > d
    · exact analyze_none_of_depth hd
    · rw [analyze_dir_eq hd]
      rw [if_pos (by simp [h])]
  · intro den es d pp
    rw [analyze_dir_eq (by omega)]
    rw [if_neg (by decide), if_neg (by decide)]
    cases den
    · rw [if_neg (by simp)]
      exact ⟨_, rfl⟩
    · rw [if_pos rfl]
      exact ⟨_, rfl⟩

theorem C9_hidden_root_dropped_witness :
    analyze (.dir ".config" false [.file "a.py" (some ["1"])]) 3 false 0 "" = none ∧
    (∃ c, analyze (.dir "." false []) 3 false 0 "" = some c) :=
  ⟨C9_hidden_root_dropped.1 ".config" false [.file "a.py" (some ["1"])] 3 0 "" (by decide),
   C9_hidden_root_dropped.2 false [] 3 ""⟩

/-- C10: a regular file given as the root is accepted: the result is a
single `'file'` node with empty children, `is_key = false`, and
`line_count` equal to the counted lines when the extension is countable
and 0 otherwise; its statistics report `directories = 0` and
`total_files = 1`. -/
theorem C10_file_root (n : String) (content : Option (List String)) (d : Nat)
    (ih : Bool) (pp : String) :
    analyze (.file n content) d ih 0 pp =
      some (.node n "file" (joinPath pp n) []
        (if CODE_EXTENSIONS.contains (extOfName n) then countLines content else 0) false) ∧
    (calculate_stats (.node n "file" (joinPath pp n) []
        (if CODE_EXTENSIONS.contains (extOfName n) then countLines content else 0)
        false)).directories = 0 ∧
    (calculate_stats (.node n "file" (joinPath pp n) []
        (if CODE_EXTENSIONS.contains (extOfName n) then countLines content else 0)
        false)).total_files = 1 := by
  refine ⟨analyze_file_eq (by omega), ?_, ?_⟩
  · simp only [calculate_stats, traverse]
    rw [if_neg (by decide)]
    split <;> (try split) <;> rfl
  · simp only [calculate_stats, traverse]
    rw [if_neg (by decide)]
    split <;> (try split) <;> rfl

end AnalyzeStructure
